import Mathlib

set_option maxHeartbeats 1000000

/-! Shallow embedding of the label-generation engine of ReTab.py, a Jython
(Python 2) Burp extension.  Python 2 str values are byte strings; they are
modelled as lists of characters, one list element per byte.  All functions
are translated from the source file src/ReTab.py; the few definitions that
instead follow the wording of the specification are marked as such. -/

/-- Python 2 str modelled as a list of characters (one per byte). -/
abbrev PyStr := List Char

/-- Shorthand turning a Lean string literal into the PyStr model. -/
def pys (s : String) : PyStr := s.data

/-- Python whitespace, as used by str.strip, str.lstrip and the regex class
backslash-s on byte strings. -/
def isPySpace (c : Char) : Bool :=
  c = ' ' || c = '\t' || c = '\n' || c = '\r' || c = '\x0b' || c = '\x0c'

/-- Hexadecimal digit, the regex class 0-9a-fA-F of the source patterns. -/
def isPyHex (c : Char) : Bool :=
  c.isDigit || ('a' ≤ c && c ≤ 'f') || ('A' ≤ c && c ≤ 'F')

/-- Regex word character a-zA-Z0-9_ used by the operation-name pattern. -/
def isWordChar (c : Char) : Bool := c.isAlphanum || c = '_'

/-- Character class of the XML tag-name pattern: word chars plus dot and
hyphen. -/
def isXmlNameChar (c : Char) : Bool := isWordChar c || c = '.' || c = '-'

/-- Python str.lower on byte strings lowercases ASCII letters only. -/
def pyLower (s : PyStr) : PyStr := s.map Char.toLower

/-- Python str.upper on byte strings uppercases ASCII letters only. -/
def pyUpper (s : PyStr) : PyStr := s.map Char.toUpper

/-- Python str.lstrip with no argument: drop leading whitespace. -/
def pyLstrip (s : PyStr) : PyStr := s.dropWhile isPySpace

/-- Python str.strip with no argument: drop whitespace on both ends. -/
def pyStrip (s : PyStr) : PyStr :=
  ((s.dropWhile isPySpace).reverse.dropWhile isPySpace).reverse

/-- Helper for find: first index at or after i where sub occurs in the
remaining text. -/
def findSubFrom (sub : PyStr) : PyStr → Nat → Option Nat
  | [], i => if sub.isPrefixOf [] then some i else none
  | c :: t, i => if sub.isPrefixOf (c :: t) then some i else findSubFrom sub t (i + 1)

/-- Python s.find(sub): first index of an occurrence, none for the -1
sentinel. -/
def findSub (s sub : PyStr) : Option Nat := findSubFrom sub s 0

/-- Python s.find(sub, start): search only at positions at or after start. -/
def pyFindFrom (s sub : PyStr) (start : Nat) : Option Nat :=
  match findSub (s.drop start) sub with
  | some j => some (start + j)
  | none => none

/-- Python substring containment, the in operator on strings. -/
def pyContains (s sub : PyStr) : Bool := (findSub s sub).isSome

/-- Python s.rfind(c) for a single character: index of the last occurrence,
none for the -1 sentinel. -/
def pyRfind : PyStr → Char → Option Nat
  | [], _ => none
  | c :: t, x =>
    match pyRfind t x with
    | some j => some (j + 1)
    | none => if c = x then some 0 else none

/-- Python s.split(sep) for a one-character separator, keeping empty pieces. -/
def pySplit : PyStr → Char → List PyStr
  | [], _ => [[]]
  | c :: t, sep =>
    match pySplit t sep with
    | h :: r => if c = sep then [] :: h :: r else (c :: h) :: r
    | [] => [[c]]

/-- Models java.net.URLDecoder.decode(raw, UTF-8) byte-wise: plus becomes a
space and a percent followed by two hex digits becomes the denoted byte (kept
as one character each, which is exact for the ASCII text the engine inspects);
a malformed percent sequence is a failure. -/
def urlDecodeAux : PyStr → Option PyStr
  | [] => some []
  | '+' :: t => (urlDecodeAux t).map (fun r => ' ' :: r)
  | '%' :: h1 :: h2 :: t =>
    if isPyHex h1 && isPyHex h2 then
      (urlDecodeAux t).map (fun r => Char.ofNat (16 * hexVal h1 + hexVal h2) :: r)
    else none
  | '%' :: _ => none
  | c :: t => (urlDecodeAux t).map (fun r => c :: r)
where
  hexVal (c : Char) : Nat :=
    if c.isDigit then c.toNat - 48
    else if 'a' ≤ c then c.toNat - 97 + 10
    else c.toNat - 65 + 10

/-- The URLDecoder.decode call of _qs_value: a decode failure is caught in the
source and the raw text returned instead. -/
def urlDecode (raw : PyStr) : PyStr :=
  match urlDecodeAux raw with
  | some out => out
  | none => raw

/-- Value of one base64 alphabet character. -/
def b64Digit (c : Char) : Option Nat :=
  if 'A' ≤ c ∧ c ≤ 'Z' then some (c.toNat - 65)
  else if 'a' ≤ c ∧ c ≤ 'z' then some (c.toNat - 97 + 26)
  else if '0' ≤ c ∧ c ≤ '9' then some (c.toNat - 48 + 52)
  else if c = '+' then some 62
  else if c = '/' then some 63
  else none

/-- Turn a list of 6-bit values into decoded bytes (kept as characters):
full groups of four give three bytes, a trailing pair gives one byte and a
trailing triple gives two bytes; leftover low bits are discarded. -/
def b64Groups : List Nat → List Char
  | a :: b :: c :: d :: rest =>
    Char.ofNat (a * 4 + b / 16) :: Char.ofNat (b % 16 * 16 + c / 4) ::
      Char.ofNat (c % 4 * 64 + d) :: b64Groups rest
  | [a, b] => [Char.ofNat (a * 4 + b / 16)]
  | [a, b, c] => [Char.ofNat (a * 4 + b / 16), Char.ofNat (b % 16 * 16 + c / 4)]
  | _ => []

/-- Models java.util.Base64.getDecoder().decode: only the basic alphabet is
accepted, optional trailing padding must complete a four-character unit, and a
single dangling character is rejected; failures model the thrown
IllegalArgumentException as none. -/
def base64decode (s : PyStr) : Option PyStr :=
  let p := (s.reverse.takeWhile (fun c => c = '=')).length
  let core := s.take (s.length - p)
  if 2 < p then none
  else if core.any (fun c => (b64Digit c).isNone) then none
  else if p ≠ 0 ∧ (core.length + p) % 4 ≠ 0 then none
  else if core.length % 4 = 1 then none
  else some (b64Groups (core.filterMap b64Digit))

/-- The lower-cased header map built by _header_map, keys unique. -/
abbrev HdrMap := List (PyStr × PyStr)

/-- Python hdr_map.get(k, empty string). -/
def hdrGet (hdr : HdrMap) (k : PyStr) : PyStr :=
  match hdr.find? (fun p => p.1 == k) with
  | some p => p.2
  | none => []

/-- _extract_json_str: targeted scan for a JSON string value by key; the
literal value null is treated as absent. -/
def extractJsonStr (text key : PyStr) : Option PyStr :=
  match findSub text ('"' :: key ++ ['"']) with
  | none => none
  | some i =>
    match pyLstrip (text.drop (i + (key.length + 2))) with
    | ':' :: r =>
      match pyLstrip r with
      | '"' :: r2 =>
        match pyFindFrom ('"' :: r2) ['"'] 1 with
        | none => none
        | some e =>
          let val := r2.take (e - 1)
          if val = pys ("null") then none else some val
      | _ => none
    | _ => none

/-- Loop of _qs_value: find occurrences of key= left to right and accept the
first one that starts the query string or directly follows an ampersand; the
fuel argument bounds the strictly advancing Python while loop. -/
def qsLoop : Nat → PyStr → PyStr → Nat → Option PyStr
  | 0, _, _, _ => none
  | fuel + 1, qs, search, start =>
    match pyFindFrom qs search start with
    | none => none
    | some i =>
      if i = 0 ∨ qs.getD (i - 1) ' ' = '&' then
        let st := i + search.length
        let raw :=
          match pyFindFrom qs ['&'] st with
          | none => qs.drop st
          | some e => (qs.drop st).take (e - st)
        some (urlDecode raw)
      else qsLoop fuel qs search (i + 1)

/-- _qs_value: extract a single query-string value without building a dict. -/
def qsValue (qs key : PyStr) : Option PyStr :=
  qsLoop (qs.length + 2) qs (key ++ ['=']) 0

/-- Match one alternation keyword as a literal at the current position and
return the rest of the text. -/
def kwRest (kw s : PyStr) : Option PyStr :=
  if kw.isPrefixOf s then some (s.drop kw.length) else none

/-- After a keyword, the pattern needs one or more whitespace characters and
then captures one or more word characters. -/
def opAfterKw (r : PyStr) : Option PyStr :=
  if r.takeWhile isPySpace = [] then none
  else if (r.dropWhile isPySpace).takeWhile isWordChar = [] then none
  else some ((r.dropWhile isPySpace).takeWhile isWordChar)

/-- One anchored attempt of the _RE_GQL_OP pattern: an operation keyword, then
whitespace, then a captured identifier; the three keywords start with distinct
characters so at most one alternative can apply at a position. -/
def gqlOpAt (s : PyStr) : Option PyStr :=
  match kwRest (pys ("query")) s with
  | some r => opAfterKw r
  | none =>
    match kwRest (pys ("mutation")) s with
    | some r => opAfterKw r
    | none =>
      match kwRest (pys ("subscription")) s with
      | some r => opAfterKw r
      | none => none

/-- _RE_GQL_OP.search: leftmost match of the operation-declaration pattern,
returning the captured identifier. -/
def reGqlOpSearch : PyStr → Option PyStr
  | [] => none
  | c :: t =>
    match gqlOpAt (c :: t) with
    | some g => some g
    | none => reGqlOpSearch t

/-- One anchored attempt of the _RE_HASH pattern: a colon, optional
whitespace, then a quoted nonempty run of hex digits, captured. -/
def matchHash : PyStr → Option PyStr
  | ':' :: r =>
    match r.dropWhile isPySpace with
    | '"' :: r2 =>
      let h := r2.takeWhile isPyHex
      if h = [] then none
      else
        match r2.drop h.length with
        | '"' :: _ => some h
        | _ => none
    | _ => none
  | _ => none

/-- _RE_HASH.search over a slice: leftmost match of matchHash. -/
def searchHash : PyStr → Option PyStr
  | [] => none
  | c :: t =>
    match matchHash (c :: t) with
    | some h => some h
    | none => searchHash t

/-- _persisted_hash: after a literal sha256Hash, search the bounded window of
the following 10 to 90 characters for a quoted hex string. -/
def persistedHash (body : PyStr) : Option PyStr :=
  match findSub body (pys ("sha256Hash")) with
  | none => none
  | some idx =>
    searchHash ((body.drop (idx + 10)).take (min (idx + 90) body.length - (idx + 10)))

/-- Python truthiness of an optional string: present and nonempty. -/
def pyTruthy : Option PyStr → Bool
  | none => false
  | some v => !v.isEmpty

/-- _gql_from_body: operationName value if truthy, else regex over the query
value, else the persisted-query hash fallback. -/
def gqlFromBody (body : PyStr) : Option PyStr :=
  let op := extractJsonStr body (pys ("operationName"))
  if pyTruthy op then op
  else
    let viaQuery :=
      match extractJsonStr body (pys ("query")) with
      | some raw => if raw.isEmpty then none else reGqlOpSearch raw
      | none => none
    match viaQuery with
    | some g => some g
    | none =>
      match persistedHash body with
      | some h => some (pys ("gql-") ++ h.take 6)
      | none => none

/-- _gql_from_qs: regex over the url-decoded query= parameter value. -/
def gqlFromQs (q : PyStr) : Option PyStr :=
  match qsValue q (pys ("query")) with
  | some val => if val.isEmpty then none else reGqlOpSearch val
  | none => none

/-- _gql_name: body first (when truthy), then the query string (when the body
result is falsy), else the literal graphql label; a found name gets the
method prefix when that option is on. -/
def gqlName (optMethod : Bool) (method : PyStr) (q : Option PyStr) (body : PyStr) : PyStr :=
  let op := if body.isEmpty then none else gqlFromBody body
  let op2 :=
    if !pyTruthy op then
      match q with
      | some qs => if qs.isEmpty then op else gqlFromQs qs
      | none => op
    else op
  match op2 with
  | some g => if g.isEmpty then pys ("graphql") else if optMethod then method ++ '-' :: g else g
  | none => pys ("graphql")

/-- One anchored attempt of the _RE_XML tag-name run: a letter followed by
word, dot or hyphen characters; returns the run and the remaining text. -/
def xmlTagRun : PyStr → Option (PyStr × PyStr)
  | c :: t =>
    if c.isAlpha then
      some (c :: t.takeWhile isXmlNameChar, t.drop (t.takeWhile isXmlNameChar).length)
    else none
  | [] => none

/-- One anchored attempt of _RE_XML: an opening angle bracket, an optional
namespace prefix ending in a colon, then the captured local tag name; when no
tag name follows the colon the engine backtracks and the first run is the
capture. -/
def xmlMatch : PyStr → Option (PyStr × PyStr)
  | '<' :: r =>
    match xmlTagRun r with
    | some (run, rest) =>
      match rest with
      | ':' :: r2 =>
        match xmlTagRun r2 with
        | some p => some p
        | none => some (run, rest)
      | _ => some (run, rest)
    | none => none
  | _ => none

/-- _RE_XML.search: leftmost match, returning capture and remaining text. -/
def xmlSearch : PyStr → Option (PyStr × PyStr)
  | [] => none
  | c :: t =>
    match xmlMatch (c :: t) with
    | some p => some p
    | none => xmlSearch t

/-- The _SOAP_SKIP set of structural tag names. -/
def soapSkip : List PyStr := [pys ("envelope"), pys ("header"), pys ("body"), pys ("xml")]

/-- The loop of _soap_name: at most eight search attempts, skipping
structural tags, resuming each search at the end of the previous match. -/
def soapScan : Nat → PyStr → PyStr
  | 0, _ => pys ("SOAP-request")
  | fuel + 1, s =>
    match xmlSearch s with
    | none => pys ("SOAP-request")
    | some (tag, rest) =>
      if soapSkip.contains (pyLower tag) then soapScan fuel rest
      else pys ("SOAP-") ++ tag

/-- _soap_name. -/
def soapName (body : PyStr) : PyStr := soapScan 8 body

/-- _trim_path: empty becomes a slash, a trailing slash is dropped unless the
path is exactly a slash. -/
def trimPath (p : PyStr) : PyStr :=
  if p.isEmpty then pys ("/")
  else if 1 < p.length ∧ p.getLast? = some '/' then p.take (p.length - 1)
  else p

/-- _RE_DIGITS.match: the whole segment is one or more decimal digits. -/
def reDigits (s : PyStr) : Bool := !s.isEmpty && s.all Char.isDigit

/-- _RE_UUID.match: the segment starts with eight hex digits, a hyphen, four
hex digits and a hyphen. -/
def reUuid (s : PyStr) : Bool :=
  (s.take 8).length == 8 && (s.take 8).all isPyHex &&
    (match s.drop 8 with
     | '-' :: r2 =>
       (r2.take 4).length == 4 && (r2.take 4).all isPyHex &&
         (match r2.drop 4 with
          | '-' :: _ => true
          | _ => false)
     | _ => false)

/-- _RE_HEX24.match: the whole segment is 24 or more hex digits. -/
def reHex24 (s : PyStr) : Bool := decide (24 ≤ s.length) && s.all isPyHex

/-- _normalize_ids: split on slashes, keep empty segments, replace segments
matched by one of the three id patterns, join with slashes. -/
def normalizeIds (path : PyStr) : PyStr :=
  List.intercalate (pys ("/"))
    ((pySplit path '/').map (fun s =>
      if s.isEmpty then s
      else if reDigits s || reUuid s || reHex24 s then pys ("\x7bid\x7d")
      else s))

/-- Python s[-n:] for nonempty n used on a string of length at least n. -/
def lastN (n : Nat) (s : PyStr) : PyStr := s.drop (s.length - n)

/-- _auth_tag: bearer tokens show their trimmed last four characters, basic
credentials decode to a username capped to eight characters, everything else
(including any decode failure) gives the empty hint. -/
def authTag (hdr : HdrMap) : PyStr :=
  let val := hdrGet hdr (pys ("authorization"))
  if val.isEmpty then []
  else
    let low := pyLower val
    if (pys ("bearer ")).isPrefixOf low then
      let tok := pyStrip (val.drop 7)
      if 4 ≤ tok.length then pys ("[..") ++ lastN 4 tok ++ pys ("]")
      else pys ("[bearer]")
    else if (pys ("basic ")).isPrefixOf low then
      match base64decode (pyStrip (val.drop 6)) with
      | some u =>
        let user := u.takeWhile (fun c => c ≠ ':')
        pys ("[") ++ (if 8 < user.length then user.take 8 else user) ++ pys ("]")
      | none => []
    else []

/-- The five engine options, injected per call from the settings panel. -/
structure Opts where
  method : Bool
  query : Bool
  normid : Bool
  auth : Bool
  maxlen : Nat

/-- The defaults set in registerExtenderCallbacks. -/
def defaultOpts : Opts := ⟨true, false, true, true, 60⟩

/-- _rest_name: optional method override, trimmed and possibly normalized
path, content-type hint, optional query prefix, optional auth hint. -/
def restName (o : Opts) (method path : PyStr) (q : Option PyStr) (hdr : HdrMap) : PyStr :=
  let override := hdrGet hdr (pys ("x-http-method-override"))
  let m := if override.isEmpty then method else pyUpper override
  let p0 := trimPath path
  let p := if o.normid then normalizeIds p0 else p0
  let parts0 := if o.method then m ++ ['-'] else []
  let partsPath := parts0 ++ (if p.isEmpty then pys ("/") else p)
  let ct := pyLower (hdrGet hdr (pys ("content-type")))
  let partsCt := partsPath ++
    (if pyContains ct (pys ("multipart/form-data")) then pys ("[multi]")
     else if pyContains ct (pys ("x-www-form-urlencoded")) then pys ("[form]")
     else [])
  let partsQ := partsCt ++
    (match q with
     | some qs => if o.query && !qs.isEmpty then '?' :: qs.take 30 else []
     | none => [])
  partsQ ++ (if o.auth then (if (authTag hdr).isEmpty then [] else authTag hdr) else [])

/-- _looks_graphql: path mentions graphql, or the query carries query=, or a
json body contains a quoted query key. -/
def looksGraphql (path : PyStr) (q : Option PyStr) (hdr : HdrMap) (body : PyStr) : Bool :=
  if !path.isEmpty && pyContains (pyLower path) (pys ("graphql")) then true
  else if (match q with
           | some qs => !qs.isEmpty && pyContains (pyLower qs) (pys ("query="))
           | none => false) then true
  else
    pyContains (pyLower (hdrGet hdr (pys ("content-type")))) (pys ("application/json"))
      && !body.isEmpty && pyContains body (pys ("\"query\""))

/-- The four protocol shapes of the priority chain. -/
inductive Shape
  | ws
  | gql
  | soap
  | rest
deriving DecidableEq

/-- The ordered short-circuiting priority chain of _name_for. -/
def classify (path : PyStr) (q : Option PyStr) (hdr : HdrMap) (body : PyStr) : Shape :=
  if pyLower (hdrGet hdr (pys ("upgrade"))) = pys ("websocket") then Shape.ws
  else if looksGraphql path q hdr body then Shape.gql
  else if pyContains (pyLower (hdrGet hdr (pys ("content-type")))) (pys ("xml")) ∧ ¬body.isEmpty then Shape.soap
  else Shape.rest

/-- The three byte literal of the source fallback cut: in Python 2 it is a
three character str holding the UTF-8 bytes of the horizontal ellipsis. -/
def ELLIPSIS : PyStr := ['\xe2', '\x80', '\xa6']

/-- Head kept by _cap: everything up to and including the hyphen of the first
hyphen-slash boundary, empty when there is none. -/
def capHead (name : PyStr) : PyStr :=
  match findSub name (pys ("-/")) with
  | some pivot => name.take (pivot + 1)
  | none => []

/-- Tail source of _cap: the rest of the name after the kept head. -/
def capTailSrc (name : PyStr) : PyStr :=
  match findSub name (pys ("-/")) with
  | some pivot => name.drop (pivot + 1)
  | none => name

/-- The plain-cut fallback of _cap: first limit minus one characters plus the
three-byte ellipsis literal. -/
def capFallback (limit : Nat) (name : PyStr) : PyStr :=
  name.take (limit - 1) ++ ELLIPSIS

/-- _cap: short names unchanged; otherwise smart mid-truncation keeping the
head and the last path segment when the last slash is internal and the budget
exceeds four, else the plain cut.  The two nested source conditions are one
conjunction here; both failures fall to the same cut.  The budget subtraction
is Nat truncated, which agrees with the Python int comparison against four. -/
def cap (limit : Nat) (name : PyStr) : PyStr :=
  if name.length ≤ limit then name
  else
    match pyRfind (capTailSrc name) '/' with
    | some slash =>
      if 0 < slash ∧ slash < (capTailSrc name).length - 1 ∧
          4 < limit - (capHead name).length - 4 - ((capTailSrc name).drop slash).length then
        capHead name ++
          (capTailSrc name).take
            (limit - (capHead name).length - 4 - ((capTailSrc name).drop slash).length) ++
          pys ("/...") ++ (capTailSrc name).drop slash
      else capFallback limit name
    | none => capFallback limit name

/-- Whether the smart branch of _cap fires for an over-long name. -/
def capSmart (limit : Nat) (name : PyStr) : Bool :=
  match pyRfind (capTailSrc name) '/' with
  | some slash =>
    decide (0 < slash ∧ slash < (capTailSrc name).length - 1 ∧
      4 < limit - (capHead name).length - 4 - ((capTailSrc name).drop slash).length)
  | none => false

/-- _name_for after metadata extraction: classify, synthesize, cap. -/
def nameFor (o : Opts) (method path : PyStr) (q : Option PyStr) (hdr : HdrMap)
    (body : PyStr) : PyStr :=
  match classify path q hdr body with
  | Shape.ws => cap o.maxlen (pys ("WS-") ++ trimPath path)
  | Shape.gql => cap o.maxlen (gqlName o.method method q body)
  | Shape.soap => cap o.maxlen (soapName body)
  | Shape.rest => cap o.maxlen (restName o method path q hdr)

/-- _method: token of the start line before the first space, with the GET
default when the header list is missing or empty; split with a space
separator always yields at least one piece, so the head default is inert. -/
def pyMethod : Option (List PyStr) → PyStr
  | some (l :: _) => (pySplit l ' ').headD (pys ("GET"))
  | _ => pys ("GET")

/-- _path_query_from_line: second token of the start line, split at the first
question mark into path and query, with slash and no query as default. -/
def pathQueryFromLine : Option (List PyStr) → PyStr × Option PyStr
  | some (l :: _) =>
    let tokens := pySplit l ' '
    if 2 ≤ tokens.length then
      let raw := tokens.getD 1 []
      match findSub raw ['?'] with
      | some sep => (raw.take sep, some (raw.drop (sep + 1)))
      | none => (raw, none)
    else (pys ("/"), none)
  | _ => (pys ("/"), none)

/-- The dedupe cache _counts: a mapping from label to count, modelled as an
association list with unique keys. -/
abbrev Cache := List (PyStr × Nat)

/-- _CACHE_CAP. -/
def CACHE_CAP : Nat := 5000

/-- Python counts.get(name, 0). -/
def cacheGet (c : Cache) (k : PyStr) : Nat :=
  match c.find? (fun p => p.1 == k) with
  | some p => p.2
  | none => 0

/-- Whether the label is already a key of the cache. -/
def cacheHasKey (c : Cache) (k : PyStr) : Bool := c.any (fun p => p.1 == k)

/-- Python counts[name] = v: update in place or insert a new key. -/
def cacheSet (c : Cache) (k : PyStr) (v : Nat) : Cache :=
  if cacheHasKey c k then c.map (fun p => if p.1 == k then (k, v) else p)
  else c ++ [(k, v)]

/-- The formatted repeat label of _dedupe: name, space, parenthesized count. -/
def dedupeLabel (name : PyStr) (n : Nat) : PyStr :=
  name ++ pys (" (") ++ (toString n).data ++ pys (")")

/-- _dedupe: increment the count of the label, clear the whole store when it
then holds more than the cap and reinsert only the current label, and return
the label with a count suffix from the second occurrence on. -/
def dedupe (c : Cache) (name : PyStr) : PyStr × Cache :=
  let n := cacheGet c name + 1
  let c1 := cacheSet c name n
  let c2 := if CACHE_CAP < c1.length then [(name, n)] else c1
  (if 1 < n then dedupeLabel name n else name, c2)

/-- Iterated _dedupe calls on one label, collecting the outputs in order. -/
def dedupeRun : Cache → PyStr → Nat → List PyStr × Cache
  | c, _, 0 => ([], c)
  | c, s, n + 1 =>
    ((dedupe c s).1 :: (dedupeRun (dedupe c s).2 s n).1, (dedupeRun (dedupe c s).2 s n).2)

/-- The cache reached from empty after a sequence of _dedupe calls. -/
def dedupeSeq (ls : List PyStr) : Cache :=
  ls.foldl (fun c s => (dedupe c s).2) []

/-- The labels currently stored in the cache. -/
def cacheKeys (c : Cache) : List PyStr := c.map Prod.fst

/-- Step 1 of the claimed GraphQL resolution order: the operationName value. -/
def specStep1 (body : PyStr) : Option PyStr :=
  extractJsonStr body (pys ("operationName"))

/-- Step 2: the declaration regex over the extracted query value. -/
def specStep2 (body : PyStr) : Option PyStr :=
  (extractJsonStr body (pys ("query"))).bind reGqlOpSearch

/-- Step 3: the persisted-query hash fallback identifier. -/
def specStep3 (body : PyStr) : Option PyStr :=
  (persistedHash body).map (fun h => pys ("gql-") ++ h.take 6)

/-- Step 4: the declaration regex over the url-decoded query= parameter. -/
def specStep4 (q : Option PyStr) : Option PyStr :=
  (q.bind (fun qs => qsValue qs (pys ("query")))).bind reGqlOpSearch

/-- First step whose result is a nonempty name: the resolution order of the
claim, amended so that a step succeeds only with a usable nonempty name. -/
def firstNonEmpty : List (Option PyStr) → Option PyStr
  | [] => none
  | o :: rest =>
    match o with
    | some v => if v = [] then firstNonEmpty rest else some v
    | none => firstNonEmpty rest

/-- The claimed resolution chain, with the nonempty-success amendment. -/
def gqlResolveSpec (q : Option PyStr) (body : PyStr) : Option PyStr :=
  firstNonEmpty [specStep1 body, specStep2 body, specStep3 body, specStep4 q]

/-- A position in a query string that starts it or directly follows an
ampersand: the only places _qs_value accepts a key. -/
def qsBoundary (qs : PyStr) (i : Nat) : Prop :=
  i = 0 ∨ (1 ≤ i ∧ qs.getD (i - 1) ' ' = '&')

/-- A cache at exactly full capacity with 5000 distinct keys, used to witness
the overflow clearing rule. -/
def bigCacheW : Cache := (List.range 5000).map (fun i => (List.replicate i 'a', 1))

/-! Helper lemmas about the byte-string model. -/

lemma poAppendSelf (p t : PyStr) : p.isPrefixOf (p ++ t) = true := by
  induction p with
  | nil => simp [List.isPrefixOf]
  | cons c r ih => simp [List.isPrefixOf, ih]

lemma poExists (p s : PyStr) (h : p.isPrefixOf s = true) : ∃ t, s = p ++ t := by
  induction p generalizing s with
  | nil => exact ⟨s, rfl⟩
  | cons c r ih =>
    cases s with
    | nil => simp [List.isPrefixOf] at h
    | cons b bs =>
      simp only [List.isPrefixOf, Bool.and_eq_true, beq_iff_eq] at h
      obtain ⟨t, ht⟩ := ih bs h.2
      exact ⟨t, by simp [h.1, ht]⟩

lemma poTake (p s : PyStr) (n : Nat) (h : p.isPrefixOf s = true) (hn : p.length ≤ n) :
    p.isPrefixOf (s.take n) = true := by
  obtain ⟨t, rfl⟩ := poExists p s h
  rw [List.take_append_eq_append_take, List.take_of_length_le hn]
  exact poAppendSelf p _

lemma poAppendRight (p s t : PyStr) (h : p.isPrefixOf s = true) :
    p.isPrefixOf (s ++ t) = true := by
  obtain ⟨r, rfl⟩ := poExists p s h
  rw [List.append_assoc]
  exact poAppendSelf p _

lemma findSubFrom_spec (sub s : PyStr) (i j : Nat)
    (h : findSubFrom sub s i = some j) :
    i ≤ j ∧ sub.isPrefixOf (s.drop (j - i)) = true := by
  induction s generalizing i with
  | nil =>
    simp only [findSubFrom] at h
    split at h
    · rename_i hp
      cases h
      exact ⟨le_refl _, by simpa [Nat.sub_self] using hp⟩
    · cases h
  | cons c t ih =>
    simp only [findSubFrom] at h
    split at h
    · rename_i hp
      cases h
      exact ⟨le_refl _, by simpa [Nat.sub_self] using hp⟩
    · obtain ⟨h1, h2⟩ := ih (i + 1) h
      refine ⟨by omega, ?_⟩
      have he : j - i = (j - (i + 1)) + 1 := by omega
      rw [he]
      simpa using h2

lemma findSub_spec (s sub : PyStr) (j : Nat) (h : findSub s sub = some j) :
    sub.isPrefixOf (s.drop j) = true := by
  have := (findSubFrom_spec sub s 0 j h).2
  simpa using this

lemma pyFindFrom_spec (s sub : PyStr) (start i : Nat) (h : pyFindFrom s sub start = some i) :
    start ≤ i ∧ sub.isPrefixOf (s.drop i) = true := by
  unfold pyFindFrom at h
  cases hf : findSub (s.drop start) sub with
  | none => rw [hf] at h; cases h
  | some j =>
    rw [hf] at h
    cases h
    have h2 := findSub_spec _ _ _ hf
    rw [List.drop_drop] at h2
    exact ⟨Nat.le_add_right _ _, h2⟩

/-! Lemmas about the dedupe cache. -/

lemma cacheHasKey_false_mem (c : Cache) (s : PyStr) (h : cacheHasKey c s = false) :
    ∀ p ∈ c, (p.1 == s) = false := by
  intro p hp
  cases hpe : (p.1 == s) with
  | false => rfl
  | true =>
    have : cacheHasKey c s = true := List.any_eq_true.mpr ⟨p, hp, hpe⟩
    rw [this] at h
    simp at h

lemma cacheGet_of_no_key (c : Cache) (s : PyStr) (h : cacheHasKey c s = false) :
    cacheGet c s = 0 := by
  have hf : c.find? (fun p => p.1 == s) = none :=
    List.find?_eq_none.mpr (fun p hp => by simp [cacheHasKey_false_mem c s h p hp])
  simp [cacheGet, hf]

lemma cacheGet_append (c : Cache) (s : PyStr) (k : Nat) (h : cacheHasKey c s = false) :
    cacheGet (c ++ [(s, k)]) s = k := by
  induction c with
  | nil => simp [cacheGet, List.find?]
  | cons p t ih =>
    have h1 : (p.1 == s) = false := cacheHasKey_false_mem _ s h p (by simp)
    have h2 : cacheHasKey t s = false := by
      cases hk : cacheHasKey t s with
      | false => rfl
      | true =>
        obtain ⟨q, hq, hqe⟩ := List.any_eq_true.mp hk
        have := cacheHasKey_false_mem _ s h q (by simp [hq])
        rw [this] at hqe
        cases hqe
    have := ih h2
    simpa [cacheGet, List.find?, h1] using this

lemma cacheSet_append (c : Cache) (s : PyStr) (k v : Nat) (h : cacheHasKey c s = false) :
    cacheSet (c ++ [(s, k)]) s v = c ++ [(s, v)] := by
  have hk : cacheHasKey (c ++ [(s, k)]) s = true := by
    simp [cacheHasKey, List.any_append]
  simp only [cacheSet, hk, if_true, List.map_append]
  congr 1
  · calc c.map (fun p => if p.1 == s then (s, v) else p)
        = c.map id := List.map_congr_left (fun p hp => by
          simp [cacheHasKey_false_mem c s h p hp])
      _ = c := List.map_id c
  · simp

lemma dedupe_fresh (c : Cache) (s : PyStr) (h : cacheHasKey c s = false)
    (hlen : c.length < CACHE_CAP) :
    dedupe c s = (s, c ++ [(s, 1)]) := by
  have hget := cacheGet_of_no_key c s h
  have hset : cacheSet c s 1 = c ++ [(s, 1)] := by simp [cacheSet, h]
  have hnotlt : ¬ CACHE_CAP < c.length + 1 := by omega
  simp [dedupe, hget, hset, hnotlt]

lemma dedupe_step (c : Cache) (s : PyStr) (k : Nat) (h : cacheHasKey c s = false)
    (hlen : c.length < CACHE_CAP) (hk : 1 ≤ k) :
    dedupe (c ++ [(s, k)]) s = (dedupeLabel s (k + 1), c ++ [(s, k + 1)]) := by
  have hget := cacheGet_append c s k h
  have hset : cacheSet (c ++ [(s, k)]) s (k + 1) = c ++ [(s, k + 1)] :=
    cacheSet_append c s k (k + 1) h
  have hnotlt : ¬ CACHE_CAP < c.length + 1 := by omega
  have hgt : 1 < k + 1 := by omega
  simp [dedupe, hset, hnotlt, hget, hgt]

lemma dedupeRun_loop (n : Nat) (c : Cache) (s : PyStr) (k : Nat)
    (h : cacheHasKey c s = false) (hlen : c.length < CACHE_CAP) (hk : 1 ≤ k) :
    (dedupeRun (c ++ [(s, k)]) s n).1
      = (List.range n).map (fun i => dedupeLabel s (k + i + 1)) := by
  induction n generalizing k with
  | zero => simp [dedupeRun]
  | succ m ih =>
    have hstep := dedupe_step c s k h hlen hk
    have ihm := ih (k + 1) (by omega)
    simp only [dedupeRun, hstep]
    rw [ihm, List.range_succ_eq_map, List.map_cons, List.map_map]
    congr 1
    apply List.map_congr_left
    intro i _
    simp only [Function.comp]
    congr 1
    omega

/-- C1: calling _dedupe on the same label N times in succession, starting
from a cache that does not yet hold the label and has room for it (so the
capacity rule never fires), returns the label itself and then the label with
counts 2 through N appended, in that exact order. -/
theorem C1_dedupe_monotone (c : Cache) (s : PyStr) (N : Nat)
    (h : cacheHasKey c s = false) (hlen : c.length < CACHE_CAP) :
    (dedupeRun c s N).1
      = (List.range N).map (fun i => if i = 0 then s else dedupeLabel s (i + 1)) := by
  cases N with
  | zero => simp [dedupeRun]
  | succ m =>
    have h1 := dedupe_fresh c s h hlen
    have hloop := dedupeRun_loop m c s 1 h hlen (le_refl 1)
    simp only [dedupeRun, h1]
    rw [hloop, List.range_succ_eq_map, List.map_cons, List.map_map]
    simp only [if_pos rfl]
    congr 1
    apply List.map_congr_left
    intro i _
    simp only [Function.comp]
    rw [if_neg (by omega)]
    congr 1
    omega

/-- C1 witness: three consecutive calls with one label on the empty cache. -/
theorem C1_dedupe_monotone_witness :
    cacheHasKey [] (pys ("tab")) = false ∧
      (dedupeRun [] (pys ("tab")) 3).1 = [pys ("tab"), pys ("tab (2)"), pys ("tab (3)")] := by
  refine ⟨by decide, ?_⟩
  rw [C1_dedupe_monotone [] (pys ("tab")) 3 (by decide) (by decide)]
  decide

lemma dedupe_len_le (c : Cache) (s : PyStr) : (dedupe c s).2.length ≤ CACHE_CAP := by
  by_cases hc : CACHE_CAP < (cacheSet c s (cacheGet c s + 1)).length
  · simp only [dedupe, if_pos hc]
    simp [CACHE_CAP]
  · simp only [dedupe, if_neg hc]
    omega

lemma cacheSet_keys_of_has (c : Cache) (s : PyStr) (v : Nat) (h : cacheHasKey c s = true) :
    cacheKeys (cacheSet c s v) = cacheKeys c := by
  simp only [cacheSet, h, if_true, cacheKeys, List.map_map]
  apply List.map_congr_left
  intro p _
  by_cases hps : (p.1 == s) = true
  · simp only [Function.comp, hps, if_true]
    exact (beq_iff_eq.mp hps).symm
  · simp only [Function.comp, hps]
    simp [Bool.eq_false_iff.mpr hps]

lemma dedupe_nodup (c : Cache) (s : PyStr) (h : (cacheKeys c).Nodup) :
    (cacheKeys (dedupe c s).2).Nodup := by
  by_cases hc : CACHE_CAP < (cacheSet c s (cacheGet c s + 1)).length
  · simp [dedupe, hc, cacheKeys]
  · simp only [dedupe, if_neg hc]
    by_cases hk : cacheHasKey c s = true
    · rwa [cacheSet_keys_of_has c s _ hk]
    · have hk2 : cacheHasKey c s = false := Bool.eq_false_iff.mpr hk
      simp only [cacheSet, hk2, Bool.false_eq_true, if_false, cacheKeys, List.map_append]
      apply List.Nodup.append h (by simp)
      intro x hx hx2
      simp only [List.map_cons, List.map_nil, List.mem_singleton] at hx2
      obtain ⟨p, hp, hps⟩ := List.mem_map.mp hx
      have := cacheHasKey_false_mem c s hk2 p hp
      rw [hps, hx2] at this
      simp at this

lemma dedupeSeq_aux (ls : List PyStr) (c : Cache) (h1 : c.length ≤ CACHE_CAP)
    (h2 : (cacheKeys c).Nodup) :
    (ls.foldl (fun c s => (dedupe c s).2) c).length ≤ CACHE_CAP ∧
      (cacheKeys (ls.foldl (fun c s => (dedupe c s).2) c)).Nodup := by
  induction ls generalizing c with
  | nil => exact ⟨h1, h2⟩
  | cons x xs ih => exact ih _ (dedupe_len_le c x) (dedupe_nodup c x h2)

lemma bigCacheW_len : bigCacheW.length = CACHE_CAP := by
  simp [bigCacheW, CACHE_CAP]

lemma bigCacheW_no_b : cacheHasKey bigCacheW (pys ("b")) = false := by
  cases hk : cacheHasKey bigCacheW (pys ("b")) with
  | false => rfl
  | true =>
    obtain ⟨p, hp, hpe⟩ := List.any_eq_true.mp hk
    obtain ⟨i, _, rfl⟩ := List.mem_map.mp hp
    have hrep : List.replicate i 'a' = pys ("b") := beq_iff_eq.mp hpe
    have h2 := List.eq_replicate_iff.mp
      (show (['b'] : PyStr) = List.replicate i 'a' from hrep.symm)
    have : 'b' = 'a' := h2.2 'b' (by simp)
    exact absurd this (by decide)

/-- C2: starting from the empty cache, every sequence of _dedupe calls leaves
at most 5000 distinct labels stored; and a call that would insert a label
into a cache already holding 5000 distinct other labels clears everything and
leaves exactly the new label, whose own freshly incremented count (here 1,
since the label was absent) still applies. -/
theorem C2_cache_bound :
    (∀ ls : List PyStr,
      (dedupeSeq ls).length ≤ CACHE_CAP ∧ (cacheKeys (dedupeSeq ls)).Nodup) ∧
    (∀ (c : Cache) (s : PyStr), c.length = CACHE_CAP → cacheHasKey c s = false →
      cacheGet c s = 0 ∧ (dedupe c s).2 = [(s, cacheGet c s + 1)]) := by
  constructor
  · intro ls
    exact dedupeSeq_aux ls [] (by simp [CACHE_CAP]) (by simp [cacheKeys])
  · intro c s hsize hkey
    refine ⟨cacheGet_of_no_key c s hkey, ?_⟩
    have hget := cacheGet_of_no_key c s hkey
    have hset : cacheSet c s (cacheGet c s + 1) = c ++ [(s, cacheGet c s + 1)] := by
      simp [cacheSet, hkey]
    have hovf : CACHE_CAP < (c ++ [(s, cacheGet c s + 1)]).length := by
      simp only [List.length_append, List.length_cons, List.length_nil, hsize]
      omega
    rw [show (dedupe c s).2
        = if CACHE_CAP < (cacheSet c s (cacheGet c s + 1)).length
          then [(s, cacheGet c s + 1)] else cacheSet c s (cacheGet c s + 1) from rfl]
    rw [hset, if_pos hovf]

/-- C2 witness: inserting a fresh label into a cache holding exactly 5000
distinct labels leaves only that label with count 1. -/
theorem C2_cache_bound_witness :
    (dedupe bigCacheW (pys ("b"))).2 = [(pys ("b"), 1)] := by
  have h := C2_cache_bound.2 bigCacheW (pys ("b")) bigCacheW_len bigCacheW_no_b
  rw [h.2, h.1]

/-! Lemmas about the truncation engine _cap. -/

lemma cap_short (limit : Nat) (name : PyStr) (h : name.length ≤ limit) :
    cap limit name = name := by
  simp [cap, h]

lemma capHead_append_tailSrc (name : PyStr) : capHead name ++ capTailSrc name = name := by
  unfold capHead capTailSrc
  cases findSub name (pys ("-/")) with
  | none => simp
  | some pivot => simp [List.take_append_drop]

lemma cap_smart_length (limit : Nat) (name : PyStr) (hlen : limit < name.length)
    (hs : capSmart limit name = true) : (cap limit name).length = limit := by
  have hsum : (capHead name).length + (capTailSrc name).length = name.length := by
    have := congrArg List.length (capHead_append_tailSrc name)
    simpa [List.length_append] using this
  unfold capSmart at hs
  unfold cap
  rw [if_neg (by omega)]
  cases hr : pyRfind (capTailSrc name) '/' with
  | none => rw [hr] at hs; cases hs
  | some slash =>
    rw [hr] at hs
    have hc := of_decide_eq_true hs
    simp only [hr]
    rw [if_pos hc]
    obtain ⟨hs1, hs2, hs3⟩ := hc
    rw [List.length_drop] at hs3
    simp only [List.length_append, List.length_take, List.length_drop]
    rw [show (pys ("/...")).length = 4 from rfl]
    have hBT : limit - (capHead name).length - 4 - ((capTailSrc name).length - slash)
        ≤ (capTailSrc name).length := by omega
    rw [Nat.min_eq_left hBT]
    omega

lemma cap_fallback_eq (limit : Nat) (name : PyStr) (hlen : limit < name.length)
    (hs : capSmart limit name = false) :
    cap limit name = name.take (limit - 1) ++ ELLIPSIS := by
  unfold capSmart at hs
  unfold cap
  rw [if_neg (by omega)]
  cases hr : pyRfind (capTailSrc name) '/' with
  | none => simp only [hr]; rfl
  | some slash =>
    rw [hr] at hs
    simp only [hr]
    rw [if_neg (of_decide_eq_false hs)]
    rfl

lemma cap_len_le (limit : Nat) (name : PyStr) (h10 : 10 ≤ limit) :
    (cap limit name).length ≤ limit + 2 := by
  by_cases hlen : name.length ≤ limit
  · rw [cap_short limit name hlen]; omega
  · by_cases hs : capSmart limit name = true
    · rw [cap_smart_length limit name (by omega) hs]; omega
    · rw [cap_fallback_eq limit name (by omega) (Bool.eq_false_iff.mpr hs)]
      simp only [List.length_append, List.length_take]
      rw [show ELLIPSIS.length = 3 from rfl]
      have := Nat.min_le_left (limit - 1) name.length
      omega

/-- C3 counterexample: re-truncating the output of _cap at the same maximum
20 changes it, because the fallback cut appends three ellipsis bytes and the
second pass then finds a smart mid-truncation. -/
theorem C3_counterexample :
    cap 20 (cap 20 (pys ("a-/bbbbbbbbbbbb/dddddddd/")))
      ≠ cap 20 (pys ("a-/bbbbbbbbbbbb/dddddddd/"))  := by
  decide

/-- C3 amended: truncation is idempotent at every maximum in 10 to 200 for
every label whose first truncation came out within the maximum, which covers
the unchanged and the smart mid-truncation cases; only outputs of the plain
fallback cut, which are two characters over the maximum, can change again. -/
theorem C3_cap_idempotent_amended (name : PyStr) (m : Nat)
    (h1 : 10 ≤ m) (h2 : m ≤ 200) (h3 : (cap m name).length ≤ m) :
    cap m (cap m name) = cap m name :=
  cap_short m (cap m name) h3

/-- C3 witness: a short label at the default maximum. -/
theorem C3_cap_idempotent_amended_witness :
    (cap 60 (pys ("abc"))).length ≤ 60 ∧
      cap 60 (cap 60 (pys ("abc"))) = cap 60 (pys ("abc")) :=
  ⟨by decide, C3_cap_idempotent_amended (pys ("abc")) 60 (by decide) (by decide) (by decide)⟩

/-- C4 counterexample: the fallback cut at maximum 10 returns a label of
length 12, not at most 10, because the appended ellipsis literal is three
bytes long in the Python 2 source. -/
theorem C4_counterexample : ¬ (cap 10 (pys ("abcdefghijk"))).length ≤ 10 := by
  decide

/-- C4 amended: for maxima in 10 to 200, an over-long label with an
inapplicable smart strategy gets the plain cut of its first max minus one
characters plus the three-byte ellipsis literal, giving length exactly
max plus two; when the smart strategy applies the output length is exactly
max; and every output is at most max plus two. -/
theorem C4_cap_length_amended (name : PyStr) (m : Nat) (h1 : 10 ≤ m) (h2 : m ≤ 200) :
    (cap m name).length ≤ m + 2 ∧
    (m < name.length → capSmart m name = false →
      cap m name = name.take (m - 1) ++ ELLIPSIS ∧ (cap m name).length = m + 2) ∧
    (m < name.length → capSmart m name = true → (cap m name).length = m) := by
  refine ⟨cap_len_le m name h1, fun hl hs => ?_, fun hl hs => cap_smart_length m name hl hs⟩
  have he := cap_fallback_eq m name hl hs
  refine ⟨he, ?_⟩
  rw [he]
  simp only [List.length_append, List.length_take]
  rw [show ELLIPSIS.length = 3 from rfl, Nat.min_eq_left (by omega)]
  omega

/-- C4 witness: the fallback shape and its exact length at maximum 10. -/
theorem C4_cap_length_amended_witness :
    cap 10 (pys ("abcdefghijk")) = (pys ("abcdefghijk")).take 9 ++ ELLIPSIS ∧
      (cap 10 (pys ("abcdefghijk"))).length = 12 := by
  simpa using
    (C4_cap_length_amended (pys ("abcdefghijk")) 10 (by decide) (by decide)).2.1
      (by decide) (by decide)

lemma cap_smart_eq (limit : Nat) (name : PyStr) (hlen : ¬ name.length ≤ limit)
    (slash : Nat) (hr : pyRfind (capTailSrc name) '/' = some slash)
    (hc : 0 < slash ∧ slash < (capTailSrc name).length - 1 ∧
      4 < limit - (capHead name).length - 4 - ((capTailSrc name).drop slash).length) :
    cap limit name = capHead name ++
      (capTailSrc name).take
        (limit - (capHead name).length - 4 - ((capTailSrc name).drop slash).length) ++
      pys ("/...") ++ (capTailSrc name).drop slash := by
  unfold cap
  rw [if_neg hlen]
  simp only [hr]
  rw [if_pos hc]

lemma cap_ws_head (limit : Nat) (name : PyStr) (h10 : 10 ≤ limit)
    (hp : (pys ("WS-")).isPrefixOf name = true) :
    (pys ("WS-")).isPrefixOf (cap limit name) = true := by
  have hws3 : (pys ("WS-")).length = 3 := rfl
  by_cases hlen : name.length ≤ limit
  · rwa [cap_short limit name hlen]
  · by_cases hsm : capSmart limit name = true
    · unfold capSmart at hsm
      cases hr : pyRfind (capTailSrc name) '/' with
      | none => rw [hr] at hsm; cases hsm
      | some slash =>
        rw [hr] at hsm
        have hc := of_decide_eq_true hsm
        rw [cap_smart_eq limit name hlen slash hr hc]
        cases hf : findSub name (pys ("-/")) with
        | none =>
          simp only [capHead, capTailSrc, hf] at hc ⊢
          simp only [List.nil_append]
          refine poAppendRight _ _ _ (poAppendRight _ _ _ (poTake _ _ _ hp ?_))
          simp only [List.length_nil] at hc ⊢
          rw [hws3]
          omega
        | some pivot =>
          have hpiv : 2 ≤ pivot := by
            obtain ⟨t, ht⟩ := poExists _ _ hp
            have hname : name = 'W' :: 'S' :: '-' :: t := by rw [ht]; rfl
            have hps := findSub_spec name _ pivot hf
            by_contra hlt
            push_neg at hlt
            interval_cases pivot
            · rw [hname] at hps
              simp only [List.drop_zero] at hps
              rw [show (pys ("-/")).isPrefixOf ('W' :: 'S' :: '-' :: t) = false from rfl] at hps
              cases hps
            · rw [hname] at hps
              rw [show (('W' :: 'S' :: '-' :: t).drop 1) = 'S' :: '-' :: t from rfl] at hps
              rw [show (pys ("-/")).isPrefixOf ('S' :: '-' :: t) = false from rfl] at hps
              cases hps
          simp only [capHead, capTailSrc, hf] at hc ⊢
          exact poAppendRight _ _ _ (poAppendRight _ _ _ (poAppendRight _ _ _
            (poTake _ _ _ hp (by omega))))
    · rw [cap_fallback_eq limit name (by omega) (Bool.eq_false_iff.mpr hsm)]
      exact poAppendRight _ _ _ (poTake _ _ _ hp (by omega))

/-- C5 counterexample: with the maximum at its lower bound 10 and a longer
path, the WebSocket label is truncated and no longer starts with WS- followed
by the whole trimmed path. -/
theorem C5_counterexample :
    pyLower (hdrGet [(pys ("upgrade"), pys ("websocket"))] (pys ("upgrade")))
        = pys ("websocket") ∧
      (pys ("WS-") ++ trimPath (pys ("/aaaaaaaa/bbbbbbbb"))).isPrefixOf
        (nameFor (⟨true, false, true, true, 10⟩ : Opts) (pys ("GET"))
          (pys ("/aaaaaaaa/bbbbbbbb")) none
          [(pys ("upgrade"), pys ("websocket"))] []) = false := by
  decide

/-- C5 amended: a request whose upgrade header lower-cases to websocket is
classified as WebSocket by the first rule, its label always starts with WS-,
and whenever WS- followed by the trimmed path fits within the maximum the
label is exactly that string, hence starts with it. -/
theorem C5_websocket_amended (o : Opts) (method path : PyStr) (q : Option PyStr)
    (hdr : HdrMap) (body : PyStr) (h1 : 10 ≤ o.maxlen) (h2 : o.maxlen ≤ 200)
    (hup : pyLower (hdrGet hdr (pys ("upgrade"))) = pys ("websocket")) :
    classify path q hdr body = Shape.ws ∧
    (pys ("WS-")).isPrefixOf (nameFor o method path q hdr body) = true ∧
    ((pys ("WS-") ++ trimPath path).length ≤ o.maxlen →
      nameFor o method path q hdr body = pys ("WS-") ++ trimPath path) := by
  have hcl : classify path q hdr body = Shape.ws := by simp [classify, hup]
  have hnf : nameFor o method path q hdr body
      = cap o.maxlen (pys ("WS-") ++ trimPath path) := by
    simp [nameFor, hcl]
  refine ⟨hcl, ?_, ?_⟩
  · rw [hnf]
    exact cap_ws_head o.maxlen _ h1 (poAppendSelf _ _)
  · intro hfit
    rw [hnf]
    exact cap_short _ _ hfit

/-- C5 witness: a short chat path at the default options. -/
theorem C5_websocket_amended_witness :
    classify (pys ("/chat")) none [(pys ("upgrade"), pys ("WebSocket"))] [] = Shape.ws ∧
      nameFor defaultOpts (pys ("GET")) (pys ("/chat")) none
        [(pys ("upgrade"), pys ("WebSocket"))] [] = pys ("WS-/chat") := by
  have h := C5_websocket_amended defaultOpts (pys ("GET")) (pys ("/chat")) none
    [(pys ("upgrade"), pys ("WebSocket"))] [] (by decide) (by decide) (by decide)
  exact ⟨h.1, (h.2.2 (by decide)).trans (by decide)⟩

/-! Lemmas about the GraphQL name resolution. -/

lemma opAfterKw_ne_nil (r g : PyStr) (h : opAfterKw r = some g) : g ≠ [] := by
  unfold opAfterKw at h
  split at h
  · cases h
  · split at h
    · cases h
    · rename_i hident
      cases h
      exact hident

lemma gqlOpAt_ne_nil (s g : PyStr) (h : gqlOpAt s = some g) : g ≠ [] := by
  unfold gqlOpAt at h
  cases h1 : kwRest (pys ("query")) s with
  | some r => rw [h1] at h; exact opAfterKw_ne_nil r g h
  | none =>
    rw [h1] at h
    cases h2 : kwRest (pys ("mutation")) s with
    | some r => rw [h2] at h; exact opAfterKw_ne_nil r g h
    | none =>
      rw [h2] at h
      cases h3 : kwRest (pys ("subscription")) s with
      | some r => rw [h3] at h; exact opAfterKw_ne_nil r g h
      | none => rw [h3] at h; cases h

lemma reGqlOpSearch_ne_nil (s g : PyStr) (h : reGqlOpSearch s = some g) : g ≠ [] := by
  induction s with
  | nil => cases h
  | cons c t ih =>
    simp only [reGqlOpSearch] at h
    cases hm : gqlOpAt (c :: t) with
    | some g2 => rw [hm] at h; cases h; exact gqlOpAt_ne_nil _ _ hm
    | none => rw [hm] at h; exact ih h

lemma gqlPfx_ne_nil (h : PyStr) : pys ("gql-") ++ h.take 6 ≠ [] := by
  rw [show pys ("gql-") = 'g' :: 'q' :: 'l' :: '-' :: [] from rfl]
  simp

lemma firstNonEmpty_ne_nil (L : List (Option PyStr)) (g : PyStr)
    (h : firstNonEmpty L = some g) : g ≠ [] := by
  induction L with
  | nil => cases h
  | cons o rest ih =>
    cases o with
    | none => exact ih (by simpa [firstNonEmpty] using h)
    | some v =>
      by_cases hv : v = []
      · subst hv
        exact ih (by simpa [firstNonEmpty] using h)
      · simp only [firstNonEmpty, if_neg hv] at h
        cases h
        exact hv

lemma firstNonEmpty_append (L1 L2 : List (Option PyStr)) :
    firstNonEmpty (L1 ++ L2)
      = match firstNonEmpty L1 with
        | some g => some g
        | none => firstNonEmpty L2 := by
  induction L1 with
  | nil => simp [firstNonEmpty]
  | cons o rest ih =>
    cases o with
    | none => simpa [firstNonEmpty] using ih
    | some v =>
      by_cases hv : v = []
      · subst hv
        simpa [firstNonEmpty] using ih
      · simp [firstNonEmpty, hv]

lemma gqlFromBody_tail_eq (body : PyStr) :
    (match
        (match extractJsonStr body (pys ("query")) with
         | some raw => if raw.isEmpty then none else reGqlOpSearch raw
         | none => none) with
      | some g => some g
      | none =>
        match persistedHash body with
        | some h => some (pys ("gql-") ++ h.take 6)
        | none => none)
      = firstNonEmpty [specStep2 body, specStep3 body] := by
  cases h2 : extractJsonStr body (pys ("query")) with
  | some raw =>
    by_cases hraw : raw = []
    · subst hraw
      cases h4 : persistedHash body with
      | some h =>
        simp [firstNonEmpty, specStep2, specStep3, h2, h4, reGqlOpSearch, gqlPfx_ne_nil h]
      | none => simp [firstNonEmpty, specStep2, specStep3, h2, h4, reGqlOpSearch]
    · cases h3 : reGqlOpSearch raw with
      | some g =>
        have hg := reGqlOpSearch_ne_nil raw g h3
        simp [firstNonEmpty, specStep2, specStep3, h2, h3, hraw, hg]
      | none =>
        cases h4 : persistedHash body with
        | some h =>
          simp [firstNonEmpty, specStep2, specStep3, h2, h3, hraw, h4, gqlPfx_ne_nil h]
        | none => simp [firstNonEmpty, specStep2, specStep3, h2, h3, hraw, h4]
  | none =>
    cases h4 : persistedHash body with
    | some h => simp [firstNonEmpty, specStep2, specStep3, h2, h4, gqlPfx_ne_nil h]
    | none => simp [firstNonEmpty, specStep2, specStep3, h2, h4]

lemma gqlFromBody_eq (body : PyStr) :
    gqlFromBody body = firstNonEmpty [specStep1 body, specStep2 body, specStep3 body] := by
  have htail := gqlFromBody_tail_eq body
  cases h1 : extractJsonStr body (pys ("operationName")) with
  | some v =>
    by_cases hv : v = []
    · subst hv
      have hL : gqlFromBody body = firstNonEmpty [specStep2 body, specStep3 body] := by
        rw [← htail]
        simp [gqlFromBody, h1, pyTruthy]
      rw [hL]
      simp [firstNonEmpty, specStep1, h1]
    · simp [gqlFromBody, firstNonEmpty, specStep1, pyTruthy, h1, hv]
  | none =>
    have hL : gqlFromBody body = firstNonEmpty [specStep2 body, specStep3 body] := by
      rw [← htail]
      simp [gqlFromBody, h1, pyTruthy]
    rw [hL]
    simp [firstNonEmpty, specStep1, h1]

lemma gqlQs_eq (q : Option PyStr) :
    (match q with
     | some qs => if qs.isEmpty then (none : Option PyStr) else gqlFromQs qs
     | none => none) = firstNonEmpty [specStep4 q] := by
  cases q with
  | none => simp [firstNonEmpty, specStep4]
  | some qs =>
    by_cases hqs : qs = []
    · subst hqs
      simp [firstNonEmpty, specStep4, show qsValue [] (pys ("query")) = none from by decide]
    · cases hval : qsValue qs (pys ("query")) with
      | none => simp [firstNonEmpty, specStep4, gqlFromQs, hqs, hval]
      | some val =>
        by_cases hv : val = []
        · subst hv
          simp [firstNonEmpty, specStep4, gqlFromQs, hqs, hval, reGqlOpSearch]
        · cases hg : reGqlOpSearch val with
          | some g =>
            have hgn := reGqlOpSearch_ne_nil val g hg
            simp [firstNonEmpty, specStep4, gqlFromQs, hqs, hval, hv, hg, hgn]
          | none => simp [firstNonEmpty, specStep4, gqlFromQs, hqs, hval, hv, hg]

/-- C6 amended: the GraphQL label of _gql_name follows the claimed four-step
resolution order, first success winning, where a step succeeds only when it
yields a nonempty name: the amendment is that an extracted empty string, like
the quoted value null, is treated as absent.  A found name gives the label
method plus hyphen plus name when the method-prefix option is on, else the
name; when all four steps fail the label is the literal graphql. -/
theorem C6_gql_resolution_amended (optM : Bool) (method : PyStr) (q : Option PyStr)
    (body : PyStr) :
    gqlName optM method q body =
      match gqlResolveSpec q body with
      | some op => if optM then method ++ '-' :: op else op
      | none => pys ("graphql") := by
  have happ : gqlResolveSpec q body
      = match firstNonEmpty [specStep1 body, specStep2 body, specStep3 body] with
        | some g => some g
        | none => firstNonEmpty [specStep4 q] := by
    rw [gqlResolveSpec, show [specStep1 body, specStep2 body, specStep3 body, specStep4 q]
        = [specStep1 body, specStep2 body, specStep3 body] ++ [specStep4 q] from rfl,
      firstNonEmpty_append]
  by_cases hb : body.isEmpty = true
  · have hbody : body = [] := by simpa using hb
    subst hbody
    have h123 : firstNonEmpty [specStep1 [], specStep2 [], specStep3 []] = none := by decide
    rw [happ, h123]
    have hq := gqlQs_eq q
    simp only [gqlName, List.isEmpty_nil, if_true, pyTruthy, Bool.not_false]
    rw [hq]
    cases hres : firstNonEmpty [specStep4 q] with
    | none => rfl
    | some g =>
      have hg := firstNonEmpty_ne_nil _ _ hres
      have hge : g.isEmpty = false := by
        cases g with
        | nil => exact absurd rfl hg
        | cons a t => rfl
      simp [hge]
  · have hbe : body.isEmpty = false := by simpa using hb
    have hfb := gqlFromBody_eq body
    cases hres3 : firstNonEmpty [specStep1 body, specStep2 body, specStep3 body] with
    | some g =>
      have hg := firstNonEmpty_ne_nil _ _ hres3
      have hge : g.isEmpty = false := by
        cases g with
        | nil => exact absurd rfl hg
        | cons a t => rfl
      rw [happ, hres3]
      rw [hres3] at hfb
      simp only [gqlName, hbe, Bool.false_eq_true, if_false, hfb, pyTruthy]
      simp [hge]
    | none =>
      rw [happ, hres3]
      rw [hres3] at hfb
      have hq := gqlQs_eq q
      simp only [gqlName, hbe, Bool.false_eq_true, if_false, hfb, pyTruthy, Bool.not_false,
        if_true]
      rw [hq]
      cases hres : firstNonEmpty [specStep4 q] with
      | none => rfl
      | some g =>
        have hg := firstNonEmpty_ne_nil _ _ hres
        have hge : g.isEmpty = false := by
          cases g with
          | nil => exact absurd rfl hg
          | cons a t => rfl
        simp [hge]

/-- C6 counterexample: a body whose operationName value is the empty string:
under the claim as stated step one succeeds with the empty name, so with the
method prefix on the label would be POST-, but the code treats the empty
extraction as falsy, falls through to the query declaration regex and
produces POST-Foo. -/
theorem C6_counterexample :
    specStep1 (pys ("\x7b\"operationName\":\"\",\"query\":\"query Foo\x7bx\x7d\"\x7d"))
        = some [] ∧
      gqlName true (pys ("POST")) none
          (pys ("\x7b\"operationName\":\"\",\"query\":\"query Foo\x7bx\x7d\"\x7d"))
        = pys ("POST-Foo") ∧
      pys ("POST-Foo") ≠ pys ("POST-") ++ ([] : PyStr) := by
  exact ⟨by decide, by decide, by decide⟩

/-! Lemmas about id normalization. -/

lemma reUuid_iff (s : PyStr) : reUuid s = true ↔
    ∃ a b r, s = a ++ '-' :: (b ++ '-' :: r) ∧ a.length = 8 ∧ b.length = 4 ∧
      (∀ c ∈ a, isPyHex c = true) ∧ (∀ c ∈ b, isPyHex c = true) := by
  constructor
  · intro h
    unfold reUuid at h
    simp only [Bool.and_eq_true, beq_iff_eq, List.all_eq_true] at h
    obtain ⟨⟨hlen8, hhex8⟩, hmatch⟩ := h
    split at hmatch
    · rename_i r2 heq
      simp only [Bool.and_eq_true, beq_iff_eq, List.all_eq_true] at hmatch
      obtain ⟨⟨hlen4, hhex4⟩, hm2⟩ := hmatch
      split at hm2
      · rename_i r3 heq2
        refine ⟨s.take 8, r2.take 4, r3, ?_, hlen8, hlen4, hhex8, hhex4⟩
        conv_lhs => rw [← List.take_append_drop 8 s]
        rw [heq]
        congr 2
        conv_lhs => rw [← List.take_append_drop 4 r2]
        rw [heq2]
      · cases hm2
    · cases hmatch
  · rintro ⟨a, b, r, rfl, ha8, hb4, hhexa, hhexb⟩
    unfold reUuid
    have hta : (a ++ '-' :: (b ++ '-' :: r)).take 8 = a := by
      rw [← ha8]; exact List.take_left a _
    have hda : (a ++ '-' :: (b ++ '-' :: r)).drop 8 = '-' :: (b ++ '-' :: r) := by
      rw [← ha8]; exact List.drop_left a _
    have htb : (b ++ '-' :: r).take 4 = b := by
      rw [← hb4]; exact List.take_left b _
    have hdb : (b ++ '-' :: r).drop 4 = '-' :: r := by
      rw [← hb4]; exact List.drop_left b _
    rw [hta, hda]
    simp [htb, hdb, ha8, hb4, List.all_eq_true]
    exact ⟨hhexa, hhexb⟩

/-- C7: normalization rewrites the slash-split path segment-wise, replacing
exactly the segments matched by one of the three id patterns with the id
placeholder and keeping every other segment; the three patterns mean all
decimal digits, an eight-hex-digit group, hyphen, four-hex-digit group and
hyphen at the start, and a full segment of 24 or more hex digits; and the
start line GET /api/users/42 HTTP/1.1 with no body yields, under the default
options, the label made of GET, a hyphen, and the path with the numeric
segment replaced by the id placeholder. -/
theorem C7_normalize_ids :
    (∀ path : PyStr, normalizeIds path
        = List.intercalate (pys ("/")) ((pySplit path '/').map
            (fun s => if (reDigits s || reUuid s || reHex24 s) = true
                      then pys ("\x7bid\x7d") else s))) ∧
    (∀ s : PyStr, reDigits s = true ↔ s ≠ [] ∧ ∀ c ∈ s, c.isDigit = true) ∧
    (∀ s : PyStr, reUuid s = true ↔
      ∃ a b r, s = a ++ '-' :: (b ++ '-' :: r) ∧ a.length = 8 ∧ b.length = 4 ∧
        (∀ c ∈ a, isPyHex c = true) ∧ (∀ c ∈ b, isPyHex c = true)) ∧
    (∀ s : PyStr, reHex24 s = true ↔ 24 ≤ s.length ∧ ∀ c ∈ s, isPyHex c = true) ∧
    (dedupe [] (nameFor defaultOpts (pyMethod (some [pys ("GET /api/users/42 HTTP/1.1")]))
        (pathQueryFromLine (some [pys ("GET /api/users/42 HTTP/1.1")])).1
        (pathQueryFromLine (some [pys ("GET /api/users/42 HTTP/1.1")])).2 [] [])).1
      = pys ("GET-/api/users/\x7bid\x7d") := by
  refine ⟨?_, ?_, reUuid_iff, ?_, by decide⟩
  · intro path
    unfold normalizeIds
    congr 1
    apply List.map_congr_left
    intro s _
    cases s with
    | nil => decide
    | cons c t => simp
  · intro s
    unfold reDigits
    simp [List.all_eq_true, List.isEmpty_iff]
  · intro s
    unfold reHex24
    simp [List.all_eq_true]

/-! Lemmas about the auth hint and the method extractor. -/

lemma prefix_val_ne_nil (p val : PyStr) (hp : p.isPrefixOf (pyLower val) = true)
    (hne : p ≠ []) : val ≠ [] := by
  intro hv
  subst hv
  cases p with
  | nil => exact hne rfl
  | cons c t => simp [pyLower, List.isPrefixOf] at hp

lemma basic_not_bearer (low : PyStr) (hb : (pys ("basic ")).isPrefixOf low = true) :
    (pys ("bearer ")).isPrefixOf low = false := by
  obtain ⟨t, rfl⟩ := poExists _ _ hb
  rfl

/-- C8: the auth hint is empty for an empty authorization header; a
case-insensitive bearer scheme shows the trimmed last four token characters
between a bracket and two dots when the trimmed token has at least four
characters and the fixed bearer hint otherwise; a case-insensitive basic
scheme whose base64 credentials decode shows the username before the first
colon, capped to its first eight characters when longer; and a decode failure
or an unrecognized scheme gives the empty hint, the function being total so
no error propagates. -/
theorem C8_auth_hint (hdr : HdrMap) :
    (hdrGet hdr (pys ("authorization")) = [] → authTag hdr = []) ∧
    (∀ val, val = hdrGet hdr (pys ("authorization")) →
      ((pys ("bearer ")).isPrefixOf (pyLower val) = true →
        (4 ≤ (pyStrip (val.drop 7)).length →
          authTag hdr = pys ("[..") ++ lastN 4 (pyStrip (val.drop 7)) ++ pys ("]")) ∧
        ((pyStrip (val.drop 7)).length < 4 → authTag hdr = pys ("[bearer]"))) ∧
      ((pys ("basic ")).isPrefixOf (pyLower val) = true →
        (∀ u, base64decode (pyStrip (val.drop 6)) = some u →
          authTag hdr = pys ("[") ++
            (if 8 < (u.takeWhile (fun c => c ≠ ':')).length
             then (u.takeWhile (fun c => c ≠ ':')).take 8
             else u.takeWhile (fun c => c ≠ ':')) ++ pys ("]")) ∧
        (base64decode (pyStrip (val.drop 6)) = none → authTag hdr = [])) ∧
      (val ≠ [] → (pys ("bearer ")).isPrefixOf (pyLower val) = false →
        (pys ("basic ")).isPrefixOf (pyLower val) = false → authTag hdr = [])) := by
  refine ⟨fun hval => by simp [authTag, hval], fun val hval => ?_⟩
  have hEne : val ≠ [] → val.isEmpty = false := by
    intro h
    cases val with
    | nil => exact absurd rfl h
    | cons c t => rfl
  refine ⟨fun hbear => ?_, fun hbasic => ?_, fun hvne hnbear hnbasic => ?_⟩
  · have hvne := prefix_val_ne_nil _ _ hbear (by decide)
    have hEmpty := hEne hvne
    constructor
    · intro hlen
      simp only [authTag, ← hval, hEmpty, Bool.false_eq_true, if_false, hbear, if_true]
      rw [if_pos hlen]
    · intro hlen
      simp only [authTag, ← hval, hEmpty, Bool.false_eq_true, if_false, hbear, if_true]
      rw [if_neg (by omega)]
  · have hvne := prefix_val_ne_nil _ _ hbasic (by decide)
    have hEmpty := hEne hvne
    have hnbear := basic_not_bearer _ hbasic
    constructor
    · intro u h64
      simp only [authTag, ← hval, hEmpty, Bool.false_eq_true, if_false, hnbear, hbasic,
        if_true, h64]
    · intro h64
      simp only [authTag, ← hval, hEmpty, Bool.false_eq_true, if_false, hnbear, hbasic,
        if_true, h64]
  · have hEmpty := hEne hvne
    simp only [authTag, ← hval, hEmpty, Bool.false_eq_true, if_false, hnbear, hnbasic]

/-- C8 witness: a bearer token of twelve characters shows its last four. -/
theorem C8_auth_hint_witness :
    authTag [(pys ("authorization"), pys ("Bearer abcd1234efgh"))] = pys ("[..efgh]") := by
  have h := ((C8_auth_hint [(pys ("authorization"), pys ("Bearer abcd1234efgh"))]).2
      (hdrGet [(pys ("authorization"), pys ("Bearer abcd1234efgh"))] (pys ("authorization")))
      rfl).1 (by decide)
  rw [h.1 (by decide)]
  decide

lemma pySplit_ne_nil (s : PyStr) (sep : Char) : pySplit s sep ≠ [] := by
  cases s with
  | nil => simp [pySplit]
  | cons c t =>
    simp only [pySplit]
    cases pySplit t sep with
    | nil => simp
    | cons h r => by_cases hc : c = sep <;> simp [hc]

lemma pySplit_headD (s : PyStr) (sep : Char) (d : PyStr) :
    (pySplit s sep).headD d = s.takeWhile (fun c => c ≠ sep) := by
  induction s with
  | nil => simp [pySplit]
  | cons c t ih =>
    obtain ⟨h, r, hps⟩ : ∃ h r, pySplit t sep = h :: r := by
      cases hx : pySplit t sep with
      | nil => exact absurd hx (pySplit_ne_nil t sep)
      | cons h r => exact ⟨h, r, rfl⟩
    have ih2 : h = t.takeWhile (fun c => c ≠ sep) := by
      rw [hps] at ih
      simpa using ih
    by_cases hc : c = sep
    · subst hc
      simp [pySplit, hps]
    · simp [pySplit, hps, hc, ih2, List.takeWhile_cons]

/-- C9: the method extractor returns the GET default when the header-line
sequence is missing or empty, and otherwise always returns the start-line
token before the first space; being a total function of the header lines it
never raises. -/
theorem C9_method_default :
    pyMethod none = pys ("GET") ∧ pyMethod (some []) = pys ("GET") ∧
      ∀ (l : PyStr) (ls : List PyStr),
        pyMethod (some (l :: ls)) = l.takeWhile (fun c => c ≠ ' ') := by
  refine ⟨rfl, rfl, fun l ls => ?_⟩
  simp only [pyMethod]
  exact pySplit_headD l ' ' (pys ("GET"))

/-! Lemmas about the query-string extractor. -/

lemma qsLoop_spec (fuel : Nat) (qs search : PyStr) (start : Nat) (v : PyStr)
    (h : qsLoop fuel qs search start = some v) :
    ∃ i, search.isPrefixOf (qs.drop i) = true ∧ qsBoundary qs i := by
  induction fuel generalizing start with
  | zero => cases h
  | succ f ih =>
    cases hf : pyFindFrom qs search start with
    | none => simp [qsLoop, hf] at h
    | some i =>
      by_cases hcond : i = 0 ∨ qs.getD (i - 1) ' ' = '&'
      · refine ⟨i, (pyFindFrom_spec qs search start i hf).2, ?_⟩
        by_cases hi0 : i = 0
        · exact Or.inl hi0
        · cases hcond with
          | inl h0 => exact Or.inl h0
          | inr hamp => exact Or.inr ⟨by omega, hamp⟩
      · refine ih (i + 1) ?_
        rw [← h]
        simp only [qsLoop, hf]
        simp
        exact (if_neg (by simpa using hcond)).symm

/-- C10: _qs_value only returns a value when an occurrence of the key
followed by an equals sign starts the query string or directly follows an
ampersand; and the concrete request with no body whose query is
notquery=mutation%20M is classified as GraphQL by the substring test on
query= yet yields the literal fallback label graphql. -/
theorem C10_qs_boundary :
    (∀ (qs key v : PyStr), qsValue qs key = some v →
      ∃ i, (key ++ ['=']).isPrefixOf (qs.drop i) = true ∧ qsBoundary qs i) ∧
    pyContains (pyLower (pys ("notquery=mutation%20M"))) (pys ("query=")) = true ∧
    classify (pys ("/api")) (some (pys ("notquery=mutation%20M"))) [] [] = Shape.gql ∧
    nameFor defaultOpts (pys ("GET")) (pys ("/api"))
      (some (pys ("notquery=mutation%20M"))) [] [] = pys ("graphql") := by
  refine ⟨?_, by decide, by decide, by decide⟩
  intro qs key v h
  exact qsLoop_spec (qs.length + 2) qs (key ++ ['=']) 0 v h

/-- C10 witness: a query string where the key occurrence follows an
ampersand, so a value is returned and a boundary position exists. -/
theorem C10_qs_boundary_witness :
    qsValue (pys ("a=1&query=Foo")) (pys ("query")) = some (pys ("Foo")) ∧
      ∃ i, ((pys ("query")) ++ ['=']).isPrefixOf ((pys ("a=1&query=Foo")).drop i) = true ∧
        qsBoundary (pys ("a=1&query=Foo")) i :=
  ⟨by decide, C10_qs_boundary.1 (pys ("a=1&query=Foo")) (pys ("query")) (pys ("Foo"))
    (by decide)⟩
